import Mathlib

/-
Verification of the release-note derivation pipeline of walle-python
(src/walle/releasenote/generator.py, src/walle/cli/batch.py,
src/walle/config/settings.py).

Strings are modelled as lists of characters.  Python regular expressions
are hand-compiled into executable matchers over those lists; the ASCII
fragment of Python whitespace and of the digit class is used (the inputs
the program processes and the claims mention are ASCII).  The GitLab
client is modelled as a record of pure functions returning `Except`,
one per API operation the pipeline calls; a Python exception raised by a
call is modelled by the `Except.error` result of the corresponding
function.
-/

namespace Walle

/-- Strings are modelled as lists of characters. -/
abbrev Str := List Char

/-- ASCII fragment of Python whitespace (`\s` and `str.strip` default). -/
def isPyWs (c : Char) : Bool :=
  c = ' ' || c = '\t' || c = '\n' || c = '\r' || c = '\x0b' || c = '\x0c'

/-- Case folding used to model the `(?i)` regex flag (`Char.toLower`). -/
def lowerC (c : Char) : Char := c.toLower

/-- Python `str.lstrip()` (ASCII whitespace model). -/
def lstrip (s : Str) : Str := s.dropWhile isPyWs

/-- Python `str.rstrip()` (ASCII whitespace model). -/
def rstrip (s : Str) : Str := (s.reverse.dropWhile isPyWs).reverse

/-- Python `str.strip()` (ASCII whitespace model). -/
def strip (s : Str) : Str := rstrip (lstrip s)

/-- Split at the first occurrence of `sep`, Python `s.split(sep, 1)`:
`none` when `sep` does not occur, otherwise the parts before and after
the first occurrence. -/
def splitFirst (sep : Char) : Str → Option (Str × Str)
  | [] => none
  | c :: rest =>
    if c = sep then some ([], rest)
    else (splitFirst sep rest).map (fun p => (c :: p.1, p.2))

/-- Python `s.split(sep)` for a one-character separator (total split). -/
def splitAll (sep : Char) : Str → List Str
  | [] => [[]]
  | c :: rest =>
    if c = sep then [] :: splitAll sep rest
    else
      match splitAll sep rest with
      | [] => [[c]]
      | l :: ls => (c :: l) :: ls

/-- Python `$` in a non-multiline regex may match at the end of the
string or just before one final newline: matching against `s` at the
end is matching against `s` with at most one trailing newline removed. -/
def pyDropFinalNl (s : Str) : Str :=
  match s.reverse with
  | '\n' :: r => r.reverse
  | _ => s

/- Constants of src/walle/releasenote/generator.py (lines 13-38). -/

/-- generator.py TITLE_CHANGES. -/
def TITLE_CHANGES : Str := "_Changes:_".toList

/-- generator.py TITLE_BUG_FIX. -/
def TITLE_BUG_FIX : Str := "**Bug Fix:**".toList

/-- generator.py TITLE_NEW_FEATURE. -/
def TITLE_NEW_FEATURE : Str := "_New Features:_".toList

/-- generator.py TITLE_DOCUMENTATION. -/
def TITLE_DOCUMENTATION : Str := "Documentation:".toList

/-- generator.py TITLE_OTHER. -/
def TITLE_OTHER : Str := "Other:".toList

/-- generator.py LABEL_RELEASE_NOTE_NONE. -/
def LABEL_RELEASE_NOTE_NONE : Str := "release-note-none".toList

/-- generator.py KINDS: conventional-commit type to section title. -/
def KINDS : List (Str × Str) :=
  [("feat".toList, TITLE_NEW_FEATURE),
   ("fix".toList, TITLE_BUG_FIX),
   ("refactor".toList, TITLE_CHANGES),
   ("docs".toList, TITLE_DOCUMENTATION)]

/-- generator.py DEFAULT_KIND. -/
def DEFAULT_KIND : Str := TITLE_OTHER

/-- generator.py SORTED_KINDS: fixed section output order. -/
def SORTED_KINDS : List Str :=
  [TITLE_BUG_FIX, TITLE_NEW_FEATURE, TITLE_CHANGES, TITLE_DOCUMENTATION, TITLE_OTHER]

/-- utils `is_in_array` (config/settings.py): membership test. -/
def is_in_array (item : Str) (array : List Str) : Bool := array.contains item

/-- Compiled form of `TAG_MATCHER_RE = ^([^( ]+)\((.*)\)$` applied with
`re.match`: group 1 is the nonempty run of characters before the first
`(` (which may contain neither `(` nor a space), group 2 is everything
between that `(` and the final `)` the string must end with (`.` does
not match a newline, and `$` may sit before one final newline). -/
def tagMatch (t : Str) : Option (Str × Str) :=
  let t := pyDropFinalNl t
  match splitFirst '(' t with
  | none => none
  | some (g1, rest) =>
    if g1 = [] then none
    else if g1.contains ' ' then none
    else
      match rest.reverse with
      | [] => none
      | c :: revInner =>
        if c = ')' && !revInner.contains '\n' then some (g1, revInner.reverse)
        else none

/-- Per-item classification logic of `join_notes` (generator.py lines
80-103): split on the first colon into tag and summary, strip both,
parse an optional `type(scope)` tag (prepending `scope: ` to the
summary when the scope is nonempty and not `*`), map the tag through
KINDS (default Other), and, when the (post-parse) tag still contains a
space, use the entire original item as the summary.  Returns the
section title together with the summary. -/
def classifyItem (item : Str) : Str × Str :=
  let parts : Str × Str :=
    match splitFirst ':' item with
    | some p => p
    | none => ([], item)
  let tag0 := strip parts.1
  let summary0 := strip parts.2
  let ts : Str × Str :=
    if tag0.contains '(' then
      match tagMatch tag0 with
      | some (g1, scope) =>
        (g1, if scope ≠ [] && scope ≠ ['*'] then scope ++ (": ".toList) ++ summary0 else summary0)
      | none => (tag0, summary0)
    else (tag0, summary0)
  let kind := (KINDS.lookup ts.1).getD DEFAULT_KIND
  let summary := if ts.1 ≠ [] && ts.1.contains ' ' then item else ts.2
  (kind, summary)

/-- Append a summary under a kind in the insertion-ordered association
list modelling the Python dict `releases`. -/
def insertRelease (releases : List (Str × List Str)) (kind : Str) (summary : Str) :
    List (Str × List Str) :=
  match releases with
  | [] => [(kind, [summary])]
  | (k, items) :: rest =>
    if k = kind then (k, items ++ [summary]) :: rest
    else (k, items) :: insertRelease rest kind summary

/-- The grouping loop of `join_notes` (generator.py lines 80-107). -/
def buildReleases (items : List Str) : List (Str × List Str) :=
  items.foldl (fun acc item => insertRelease acc (classifyItem item).1 (classifyItem item).2) []

/-- One rendered section of `join_notes` (generator.py line 114):
`f"{kind}\n- {chr(10).join(['- ' + item for item in items_list])}\n"`. -/
def sectionStr (kind : Str) (items : List Str) : Str :=
  kind ++ ('\n' :: ("- ".toList)) ++
    (List.intercalate ("\n".toList) (items.map (fun i => ("- ".toList) ++ i))) ++ ['\n']

/-- generator.py `join_notes` (lines 69-117): group the items, then
emit the non-empty sections in SORTED_KINDS order joined by newlines. -/
def join_notes (items : List Str) : Str :=
  let releases := buildReleases items
  List.intercalate ("\n".toList)
    (SORTED_KINDS.filterMap (fun kind => (releases.lookup kind).map (sectionStr kind)))

/- Exclusion filter (generator.py lines 40-66).  The first pattern
`(?i)```release-note[s]?\s*('|\")?(none|n/a|na)?('|\")?\s*``` ` is
hand-compiled into a layered backtracking matcher, one layer per
regex element; `search` is the disjunction over all start positions. -/

/-- The literal `\x60\x60\x60release-note` head of the fence pattern
(`\x60` is a backtick). -/
def sFenceTag : Str := "```release-note".toList

/-- Three backticks, the closing fence of the pattern. -/
def sTicks : Str := "```".toList

/-- Case-insensitive prefix test (model of matching a literal under the
regex flag `(?i)`). -/
def ciPrefixOf : Str → Str → Bool
  | [], _ => true
  | _ :: _, [] => false
  | a :: as, b :: bs => (lowerC a = lowerC b) && ciPrefixOf as bs

/-- Matcher for `\s*(backtick backtick backtick)` followed by anything:
the tail of the fence pattern after the optional closing quote. -/
def matchWs2 : Str → Bool
  | [] => false
  | c :: rest => sTicks.isPrefixOf (c :: rest) || (isPyWs c && matchWs2 rest)

/-- Matcher for `('|\")?` followed by the tail `\s*(fence close)`. -/
def matchQ2 (l : Str) : Bool :=
  matchWs2 l ||
    (match l with
     | c :: rest => (c = '\'' || c = '"') && matchWs2 rest
     | [] => false)

/-- The three content words of the fence pattern. -/
def contentWords : List Str := ["none".toList, "n/a".toList, "na".toList]

/-- Matcher for `(none|n/a|na)?` (case-insensitive) followed by the
tail `('|\")?\s*(fence close)`. -/
def matchContent (l : Str) : Bool :=
  matchQ2 l || contentWords.any (fun w => ciPrefixOf w l && matchQ2 (l.drop w.length))

/-- Matcher for the opening `('|\")?` followed by the content tail. -/
def matchQ1 (l : Str) : Bool :=
  matchContent l ||
    (match l with
     | c :: rest => (c = '\'' || c = '"') && matchContent rest
     | [] => false)

/-- Matcher for the first `\s*` followed by the quoted-content tail. -/
def matchWs1 : Str → Bool
  | [] => matchQ1 []
  | c :: rest => matchQ1 (c :: rest) || (isPyWs c && matchWs1 rest)

/-- Matcher for `[s]?` (case-insensitive) after the fence tag. -/
def matchSOpt (l : Str) : Bool :=
  matchWs1 l ||
    (match l with
     | c :: rest => (lowerC c = 's') && matchWs1 rest
     | [] => false)

/-- Anchored match of the whole fence pattern at the head of `l`. -/
def matchFenceAt (l : Str) : Bool :=
  ciPrefixOf sFenceTag l && matchSOpt (l.drop sFenceTag.length)

/-- `re.search` of the fence pattern: a match at some start position. -/
def fenceSearch (s : Str) : Bool := s.tails.any matchFenceAt

/-- The literal second exclusion pattern `/release-note-none`. -/
def sNoneToken : Str := "/release-note-none".toList

/-- `re.search` of the literal `/release-note-none`: substring test. -/
def tokenSearch (s : Str) : Bool := s.tails.any (fun t => sNoneToken.isPrefixOf t)

/-- generator.py `matches_exclude_filter` (lines 54-66): true when any
of the two NOTE_EXCLUSION_FILTERS patterns is found in the message. -/
def matches_exclude_filter (msg : Str) : Bool :=
  fenceSearch msg || tokenSearch msg

/- Commit-to-MR extraction (generator.py lines 298-317). -/

/-- ASCII model of the regex class `\d`. -/
def isDigitChar (c : Char) : Bool := '0' ≤ c && c ≤ '9'

/-- Python `int` on a nonempty ASCII digit string. -/
def natOfDigits (ds : Str) : Nat :=
  ds.foldl (fun n c => n * 10 + (c.toNat - ('0').toNat)) 0

/-- The literal line head the trailer pattern requires. -/
def sSeeMarker : Str := "See merge request ".toList

/-- Non-newline character (the characters `.` can match). -/
def notNl (c : Char) : Bool := c ≠ '\n'

/-- Check of the part before the final `!`: it must end with a line
`See merge request <mid>` with `<mid>` nonempty and newline-free, and
that line must be preceded by two newlines (`\n\nSee merge request .+`
of the trailer regex).  `beforeRev` is that part reversed. -/
def hasMarkerLineRev (beforeRev : Str) : Bool :=
  let lastLineRev := beforeRev.takeWhile notNl
  match beforeRev.dropWhile notNl with
  | '\n' :: '\n' :: _ =>
    sSeeMarker.isPrefixOf lastLineRev.reverse && sSeeMarker.length < lastLineRev.length
  | _ => false

/-- generator.py `mr_num_for_commit_from_message` (lines 298-317):
compiled form of `re.search(r'\n\nSee merge request .+!(\d+)$', msg)`.
The match, if any, ends at the end of the string (`$` also matches
before one final newline), so the captured digits are the maximal
digit run at the end, which must be nonempty and preceded by `!`, with
the trailer line before it.  Returns the digit value, or 0 when the
pattern is absent. -/
def mr_num_for_commit_from_message (msg : Str) : Nat :=
  let s := pyDropFinalNl msg
  let revs := s.reverse
  let dsRev := revs.takeWhile isDigitChar
  match revs.dropWhile isDigitChar with
  | '!' :: beforeRev =>
    if dsRev ≠ [] && hasMarkerLineRev beforeRev then natOfDigits dsRev.reverse else 0
  | _ => 0

/- Data model and the forge client (generator.py callers of `client`).
A raised Python exception is modelled by `Except.error`; an API result
of `None` by `Option.none`. -/

/-- A forge tag: name and the creation timestamp of its commit
(`tag['name']`, `tag['commit']['created_at']`); timestamps are opaque
strings. -/
structure Tag where
  name : Str
  created_at : Str
deriving DecidableEq

/-- A commit as the pipeline consumes it (`commit['message']`). -/
structure Commit where
  message : Str
deriving DecidableEq

/-- A merge request as the pipeline consumes it. -/
structure MergeRequest where
  iid : Nat
  title : Str
  web_url : Str
  author_username : Str
  description : Str
  labels : List Str
deriving DecidableEq

/-- The GitLab client: one pure function per API call the pipeline
makes, `Except.error` modelling a raised exception. -/
structure Client where
  list_tags : Str → Except Str (List Tag)
  get_commit : Str → Str → Except Str (Option Tag)
  list_commits : Str → Str → Option Str → Option Str → Except Str (List Commit)
  get_merge_request : Str → Nat → Except Str (Option MergeRequest)

/-- Python truthiness of an `Optional[str]`: `None` and the empty
string are falsy. -/
def truthy : Option Str → Bool
  | none => false
  | some s => !s.isEmpty

/-- Whether a client call raised (returned `Except.error`). -/
def isErr {α : Type} : Except Str α → Bool
  | .error _ => true
  | .ok _ => false

/-- The resolved commit range: `tag_exists`, `since_at`, `until_at`
(generator.py lines 167-169). -/
structure RangeInfo where
  tag_exists : Bool
  since_at : Option Str
  until_at : Option Str
deriving DecidableEq

/-- The auto-detection loop of `get_release_notes_by_tag` (generator.py
lines 207-215): each tag named `target` sets `tag_exists` and
`until_at` and continues; the first tag not named `target` sets
`since_at` from its own timestamp and breaks the loop.  `ex`, `un`,
`si` carry the values the variables hold when the loop starts. -/
def autoScan (target : Str) : List Tag → Bool → Option Str → Option Str → RangeInfo
  | [], ex, un, si => ⟨ex, si, un⟩
  | t :: rest, ex, un, si =>
    if t.name = target then autoScan target rest true (some t.created_at) si
    else ⟨ex, some t.created_at, un⟩

/-- Range determination of `get_release_notes_by_tag` (generator.py
lines 166-215).  When `since` is truthy: the first tag named
`tag_name` gives `tag_exists`/`until_at`; `since` is resolved first as
a tag name, else by `get_commit` (whose exceptions and `None` result
are swallowed).  When `since_at` remains falsy, fall back to the
auto-detection loop. -/
def resolveRange (c : Client) (project tag_name : Str) (since : Option Str)
    (tags : List Tag) : RangeInfo :=
  let init : RangeInfo :=
    if truthy since then
      let s := since.getD []
      let target := tags.find? (fun t => t.name = tag_name)
      let si : Option Str :=
        match tags.find? (fun t => t.name = s) with
        | some t => some t.created_at
        | none =>
          match c.get_commit project s with
          | .ok (some ci) => some ci.created_at
          | _ => none
      ⟨target.isSome, si, target.map Tag.created_at⟩
    else ⟨false, none, none⟩
  if truthy init.since_at then init
  else autoScan tag_name tags init.tag_exists init.until_at init.since_at

/-- The MR-iid list `mr_from_commits` builds (generator.py lines
262-267): extracted iids of the commit messages, keeping only those
strictly greater than zero. -/
def mrIidsOf (commits : List Commit) : List Nat :=
  ((commits.map (fun cm => mr_num_for_commit_from_message cm.message)).filter
    (fun iid => 0 < iid))

/-- generator.py `mr_from_commits` (lines 246-295): extract the iids,
fetch each merge request, and keep the successful non-`None` results.
The concurrent fan-out is modelled sequentially in submission order
(the worker-pool size only bounds parallelism); a fetch that raises or
returns `None` is logged and omitted. -/
def mr_from_commits (commits : List Commit) (c : Client) (project : Str) :
    List MergeRequest :=
  if commits = [] then []
  else
    (mrIidsOf commits).filterMap (fun iid =>
      match c.get_merge_request project iid with
      | .ok (some mr) => some mr
      | _ => none)

/-- The title line `generate_release_notes` builds per merge request
(generator.py line 139). -/
def mrTitleLine (mr : MergeRequest) : Str :=
  mr.title ++ " ([!".toList ++ (Nat.repr mr.iid).toList ++ "](".toList ++
    mr.web_url ++ ")) @".toList ++ mr.author_username

/-- generator.py `generate_release_notes` (lines 120-142): filter the
merge requests by the condition, render each as a title line, and
group via `join_notes`. -/
def generate_release_notes (mrs : List MergeRequest) (condition : MergeRequest → Bool) :
    Str :=
  join_notes ((mrs.filter condition).map mrTitleLine)

/-- The per-MR inclusion condition of `get_release_notes_by_tag`
(generator.py lines 230-236): not excluded by description patterns nor
by the `release-note-none` label. -/
def mrCondition (mr : MergeRequest) : Bool :=
  !(matches_exclude_filter mr.description ||
    is_in_array LABEL_RELEASE_NOTE_NONE mr.labels)

/-- The error message returned for an empty tag list. -/
def sNoTagsError : Str := "No tags found in project".toList

/-- generator.py `get_release_notes_by_tag` (lines 145-243): list the
tags (empty list or a raised exception is fatal), resolve the range,
list the commits in it (a raised exception is fatal, an empty list
returns no error), drop the boundary commit when `since_at` is truthy,
resolve and filter the merge requests, and render.  Returns
`(tag_exists, release_notes, error)`. -/
def get_release_notes_by_tag (c : Client) (project tag_name ref : Str)
    (since : Option Str) : Bool × Str × Option Str :=
  match c.list_tags project with
  | .error e => (false, [], some e)
  | .ok tags =>
    if tags = [] then (false, [], some sNoTagsError)
    else
      let ri := resolveRange c project tag_name since tags
      match c.list_commits project ref ri.since_at ri.until_at with
      | .error e => (false, [], some e)
      | .ok commits =>
        if commits = [] then (ri.tag_exists, [], none)
        else
          let commits2 := if commits ≠ [] && truthy ri.since_at then commits.drop 1 else commits
          let mrs := mr_from_commits commits2 c project
          (ri.tag_exists, generate_release_notes mrs mrCondition, none)

/- Batch re-parsing collaborator (cli/batch.py lines 11-54). -/

/-- The header-to-key table of `parse_release_notes`, in dict insertion
order. -/
def categoriesList : List (Str × Str) :=
  [(TITLE_BUG_FIX, "bug_fixes".toList),
   (TITLE_NEW_FEATURE, "new_features".toList),
   (TITLE_CHANGES, "changes".toList),
   (TITLE_DOCUMENTATION, "documentation".toList),
   (TITLE_OTHER, "other".toList)]

/-- The line scan of `parse_release_notes`: strip each line, skip empty
lines, switch category on a line starting with a known header, and on
a `-` line under a current category record
`(key, "**" + project + "**: " + stripped rest)`.  Returns the
recorded pairs in scan order (the defaultdict groups them by key
preserving this order). -/
def parseScan (project_name : Str) : List Str → Option Str → List (Str × Str)
  | [], _ => []
  | line :: rest, cur =>
    let l := strip line
    if l = [] then parseScan project_name rest cur
    else
      match categoriesList.find? (fun p => p.1.isPrefixOf l) with
      | some p => parseScan project_name rest (some p.2)
      | none =>
        match l, cur with
        | '-' :: tail, some ck =>
          (ck, "**".toList ++ project_name ++ "**: ".toList ++ strip tail) ::
            parseScan project_name rest (some ck)
        | _, _ => parseScan project_name rest cur

/-- batch.py `parse_release_notes` (lines 11-54), as the flat list of
(category key, recorded item) pairs in scan order. -/
def parse_release_notes (release_notes : Str) (project_name : Str) :
    List (Str × Str) :=
  parseScan project_name (splitAll '\n' release_notes) none

/- Declarative (specification-side) characterisations, used to state
the exclusion-filter and trailer-extraction properties independently
of the executable matchers. -/

/-- Case-insensitive equality of strings (regex flag `(?i)`). -/
def ciEq (a b : Str) : Prop := a.map lowerC = b.map lowerC

/-- All characters are whitespace (a `\s*` segment). -/
def WsStr (w : Str) : Prop := ∀ c ∈ w, isPyWs c = true

/-- An optional single quote character (`('|\")?`). -/
def QuoteOpt (q : Str) : Prop := q = [] ∨ q = ['\''] ∨ q = ['"']

/-- The optional fence content: empty, `none`, `n/a` or `na`,
case-insensitively (`(none|n/a|na)?`). -/
def ContentOpt (co : Str) : Prop :=
  co = [] ∨ ciEq co ("none".toList) ∨ ciEq co ("n/a".toList) ∨ ciEq co ("na".toList)

/-- The optional plural `s` of the fence tag (`[s]?` under `(?i)`). -/
def STagOpt (x : Str) : Prop := x = [] ∨ ciEq x (['s'])

/-- The description contains a fenced block tagged
release-note/release-notes whose sole content, case-insensitively,
optionally quoted and surrounded by optional whitespace, is empty,
`none`, `n/a` or `na`. -/
def FenceDecomp (s : Str) : Prop :=
  ∃ pre tg so w1 q1 co q2 w2 post : Str,
    s = pre ++ tg ++ so ++ w1 ++ q1 ++ co ++ q2 ++ w2 ++ sTicks ++ post ∧
    ciEq tg sFenceTag ∧ STagOpt so ∧ WsStr w1 ∧ QuoteOpt q1 ∧ ContentOpt co ∧
    QuoteOpt q2 ∧ WsStr w2

/-- The description contains the token `/release-note-none` somewhere. -/
def TokenDecomp (s : Str) : Prop := ∃ pre post : Str, s = pre ++ sNoneToken ++ post

/- Intermediate decompositions mirroring the matcher layers. -/

/-- Tail after the closing quote: whitespace then the closing fence. -/
def W2P (l : Str) : Prop := ∃ w r, l = w ++ sTicks ++ r ∧ WsStr w

/-- Tail after the content: optional quote then `W2P`. -/
def Q2P (l : Str) : Prop := ∃ q r, l = q ++ r ∧ QuoteOpt q ∧ W2P r

/-- Tail after the opening quote: optional content word then `Q2P`. -/
def CoP (l : Str) : Prop := ∃ co r, l = co ++ r ∧ ContentOpt co ∧ Q2P r

/-- Tail after the first whitespace run: optional quote then `CoP`. -/
def Q1P (l : Str) : Prop := ∃ q r, l = q ++ r ∧ QuoteOpt q ∧ CoP r

/-- Tail after the optional `s`: whitespace run then `Q1P`. -/
def W1P (l : Str) : Prop := ∃ w r, l = w ++ r ∧ WsStr w ∧ Q1P r

/-- Tail after the fence tag: optional `s` then `W1P`. -/
def SOP (l : Str) : Prop := ∃ x r, l = x ++ r ∧ STagOpt x ∧ W1P r

/-- Anchored whole-pattern decomposition at the head of `l`. -/
def FenceAtP (l : Str) : Prop := ∃ tg r, l = tg ++ r ∧ ciEq tg sFenceTag ∧ SOP r

/- Concrete fixtures used by witnesses and counterexamples. -/

/-- Fixture project name. -/
def sProj : Str := "p".toList

/-- Fixture git ref. -/
def sRef : Str := "main".toList

/-- Fixture tag names and timestamps. -/
def sV1 : Str := "v1".toList

/-- Fixture tag name v2. -/
def sV2 : Str := "v2".toList

/-- Fixture tag name v3. -/
def sV3 : Str := "v3".toList

/-- Fixture timestamp t1. -/
def sT1 : Str := "t1".toList

/-- Fixture timestamp t2. -/
def sT2 : Str := "t2".toList

/-- Fixture timestamp t3. -/
def sT3 : Str := "t3".toList

/-- Fixture tag v1 at t1. -/
def tagV1 : Tag := ⟨sV1, sT1⟩

/-- Fixture tag v2 at t2. -/
def tagV2 : Tag := ⟨sV2, sT2⟩

/-- Fixture tag v3 at t3. -/
def tagV3 : Tag := ⟨sV3, sT3⟩

/-- Three tags in descending commit-time order, as the forge returns
them. -/
def tagsDesc : List Tag := [tagV3, tagV2, tagV1]

/-- A client whose calls all succeed with empty results. -/
def stubClient : Client :=
  ⟨fun _ => .ok [], fun _ _ => .ok none, fun _ _ _ _ => .ok [], fun _ _ => .ok none⟩

/-- A commit whose message carries the MR trailer for iid 5. -/
def cmTrailer5 : Commit := ⟨("m\n\nSee merge request foo!5").toList⟩

/-- Two plain commits without trailers. -/
def cmA : Commit := ⟨("first commit").toList⟩

/-- Second plain commit. -/
def cmB : Commit := ⟨("second commit").toList⟩

/-- A client for which the merge-request fetch raises: one tag, one
commit carrying an MR trailer, `get_merge_request` always fails. -/
def mrErrClient : Client :=
  ⟨fun _ => .ok [tagV1], fun _ _ => .ok none,
   fun _ _ _ _ => .ok [cmTrailer5], fun _ _ => .error ("boom".toList)⟩

/-- A client whose commit listing is empty but whose tag list is not. -/
def emptyCommitsClient : Client :=
  ⟨fun _ => .ok tagsDesc, fun _ _ => .ok none,
   fun _ _ _ _ => .ok [], fun _ _ => .ok none⟩

/-- A client with the three descending tags and two commits. -/
def twoCommitsClient : Client :=
  ⟨fun _ => .ok tagsDesc, fun _ _ => .ok none,
   fun _ _ _ _ => .ok [cmA, cmB], fun _ _ => .ok none⟩

/-- A merge request carrying the `release-note-none` label. -/
def mrLabeled : MergeRequest :=
  ⟨1, ("t".toList), ("u".toList), ("a".toList), [], [LABEL_RELEASE_NOTE_NONE]⟩

/- Helper lemmas. -/

/-- Boolean disjunction as a propositional disjunction. -/
lemma bor_iff {a b : Bool} : (a || b) = true ↔ a = true ∨ b = true := by
  cases a <;> cases b <;> simp

/-- Boolean conjunction as a propositional conjunction. -/
lemma band_iff {a b : Bool} : (a && b) = true ↔ a = true ∧ b = true := by
  cases a <;> cases b <;> simp

/-- Processing a block of tags all named `target` keeps scanning,
accumulating `tag_exists` and the last timestamp into `until_at`. -/
lemma autoScan_leading (target : Str) (pre : List Tag) :
    ∀ (rest : List Tag) (ex : Bool) (un si : Option Str),
      (∀ x ∈ pre, x.name = target) →
      autoScan target (pre ++ rest) ex un si =
        autoScan target rest (ex || !pre.isEmpty)
          (((pre.getLast?).map Tag.created_at).or un) si := by
  induction pre with
  | nil =>
    intro rest ex un si _
    simp [Option.none_or]
  | cons a pre ih =>
    intro rest ex un si h
    have ha : a.name = target := h a (List.mem_cons_self a pre)
    rw [List.cons_append]
    show (if a.name = target then
        autoScan target (pre ++ rest) true (some a.created_at) si
      else ⟨ex, some a.created_at, un⟩) = _
    rw [if_pos ha, ih rest true (some a.created_at) si (fun x hx => h x (List.mem_cons_of_mem a hx))]
    cases pre with
    | nil => simp
    | cons b l =>
      have hlast : ∃ z, (b :: l).getLast? = some z := by
        cases hz : (b :: l).getLast? with
        | none => exact absurd (List.getLast?_eq_none_iff.mp hz) (by simp)
        | some z => exact ⟨z, rfl⟩
      obtain ⟨z, hz⟩ := hlast
      simp [List.getLast?_cons_cons, hz, Option.or]

/-- Scanning a list of tags all named `target` never breaks: the
result keeps the incoming `since_at`. -/
lemma autoScan_all (target : Str) (l : List Tag) (ex : Bool) (un si : Option Str)
    (h : ∀ x ∈ l, x.name = target) :
    autoScan target l ex un si =
      ⟨ex || !l.isEmpty, si, ((l.getLast?).map Tag.created_at).or un⟩ := by
  have := autoScan_leading target l [] ex un si h
  rw [List.append_nil] at this
  rw [this]
  rfl

/-- A tag whose first colon-free part is not a KINDS key maps to no
entry; the four keys are space-free, so any tag containing a space is
unmapped. -/
lemma KINDS_lookup_eq_none {tag : Str} (h : tag ∉ KINDS.map Prod.fst) :
    KINDS.lookup tag = none := by
  simp only [KINDS, List.map, List.mem_cons, List.not_mem_nil, or_false, not_or] at h
  obtain ⟨h1, h2, h3, h4⟩ := h
  simp only [KINDS, List.lookup]
  rw [beq_eq_false_iff_ne.mpr h1, beq_eq_false_iff_ne.mpr h2,
    beq_eq_false_iff_ne.mpr h3, beq_eq_false_iff_ne.mpr h4]

/-- A tag containing a space is not a KINDS key. -/
lemma KINDS_lookup_space {tag : Str} (h : tag.contains ' ' = true) :
    KINDS.lookup tag = none := by
  apply KINDS_lookup_eq_none
  intro hmem
  simp only [KINDS, List.map, List.mem_cons, List.not_mem_nil, or_false] at hmem
  rcases hmem with h1 | h1 | h1 | h1 <;> (subst h1; revert h; decide)

/- C1: range auto-detection. -/

/-- C1 counterexample: for tags `[v3@t3, v2@t2, v1@t1]` and target
`v2` with no since override, the scan breaks at the first tag `v3`
(whose name differs from the target), producing
`tag_exists = false`, `since_at = t3`, `until_at` absent — not the
claimed `until_at = t2`, `since_at = t1` with `tag_exists = true`. -/
theorem c1_counterexample :
    resolveRange stubClient sProj sV2 none tagsDesc = ⟨false, some sT3, none⟩ ∧
    resolveRange stubClient sProj sV2 none tagsDesc ≠ ⟨true, some sT1, some sT2⟩ := by
  decide

/-- C1 amended: with no since override the scan stops at the first tag
whose name differs from the target.  `tag_exists` and `until_at` are
set only by target-named tags preceding that first other tag (so only
when the target heads the list); `since_at` is that first other tag's
timestamp, and is absent exactly when every tag is named like the
target. -/
theorem c1_range_scan_stops_at_first_other_tag :
    (∀ (c : Client) (project target : Str) (pre post : List Tag) (t : Tag),
      (∀ x ∈ pre, x.name = target) → t.name ≠ target →
      resolveRange c project target none (pre ++ t :: post) =
        ⟨!pre.isEmpty, some t.created_at, (pre.getLast?).map Tag.created_at⟩) ∧
    (∀ (c : Client) (project target : Str) (tags : List Tag),
      (∀ x ∈ tags, x.name = target) →
      resolveRange c project target none tags =
        ⟨!tags.isEmpty, none, (tags.getLast?).map Tag.created_at⟩) := by
  constructor
  · intro c project target pre post t hpre ht
    show autoScan target (pre ++ t :: post) false none none = _
    rw [autoScan_leading target pre (t :: post) false none none hpre]
    show (if t.name = target then _ else
        RangeInfo.mk (false || !pre.isEmpty) (some t.created_at)
          (((pre.getLast?).map Tag.created_at).or none)) = _
    rw [if_neg ht, Bool.false_or, Option.or_none]
  · intro c project target tags htags
    show autoScan target tags false none none = _
    rw [autoScan_all target tags false none none htags, Bool.false_or, Option.or_none]

/-- C1 witness: the amended scan law evaluated on the concrete
descending tag list with target `v2` (no leading target-named tags). -/
theorem c1_amended_witness :
    resolveRange stubClient sProj sV2 none tagsDesc = ⟨false, some sT3, none⟩ := by
  have h := c1_range_scan_stops_at_first_other_tag.1 stubClient sProj sV2 [] [tagV2, tagV1]
    tagV3 (by intro x hx; cases hx) (by decide)
  exact h.trans (by decide)

/- C2: rendered markdown shape. -/

/-- C2: rendering a single Bug Fix note.  The first (and only) bullet
of the section is emitted as a doubled dash `- - crash`, because the
section format string prepends `- ` to a join whose elements already
carry `- `; the claimed shape `- <summary>` fails on the first bullet
of every section. -/
theorem c2_render_first_bullet_doubled :
    join_notes [("fix: crash".toList)] = ("**Bug Fix:**\n- - crash\n".toList) ∧
    join_notes [("fix: crash".toList)] ≠ ("**Bug Fix:**\n- crash\n".toList) := by
  decide

/- C4: renderer round-trip. -/

/-- C4: the batch collaborator's re-parse of the rendered markdown
does not recover the grouped pairs: the renderer groups
`("fix: crash")` as summary `crash` under Bug Fix, but the parser
recovers `- crash` (with the project prefix) because the doubled
first bullet leaves one extra dash after stripping one. -/
theorem c4_roundtrip_fails_on_first_bullet :
    buildReleases [("fix: crash".toList)] = [(TITLE_BUG_FIX, [("crash".toList)])] ∧
    parse_release_notes (join_notes [("fix: crash".toList)]) sProj =
      [(("bug_fixes".toList), ("**p**: - crash".toList))] ∧
    ("**p**: - crash".toList) ≠ ("**p**: crash".toList) := by
  decide

/- C8: classifier mapping and scope handling. -/

/-- C8: the three claimed concrete classifications hold, a non-`*`
scope is prepended to the summary, and the KINDS mapping is exactly
feat/fix/refactor/docs with everything else falling to Other. -/
theorem c8_classifier_mapping :
    classifyItem ("feat(api): add X".toList) = (TITLE_NEW_FEATURE, ("api: add X".toList)) ∧
    classifyItem ("chore: bump deps".toList) = (TITLE_OTHER, ("bump deps".toList)) ∧
    classifyItem ("no colon here".toList) = (TITLE_OTHER, ("no colon here".toList)) ∧
    (KINDS.lookup ("feat".toList)).getD DEFAULT_KIND = TITLE_NEW_FEATURE ∧
    (KINDS.lookup ("fix".toList)).getD DEFAULT_KIND = TITLE_BUG_FIX ∧
    (KINDS.lookup ("refactor".toList)).getD DEFAULT_KIND = TITLE_CHANGES ∧
    (KINDS.lookup ("docs".toList)).getD DEFAULT_KIND = TITLE_DOCUMENTATION ∧
    ∀ tag : Str, tag ∉ KINDS.map Prod.fst →
      (KINDS.lookup tag).getD DEFAULT_KIND = TITLE_OTHER := by
  refine ⟨by decide, by decide, by decide, by decide, by decide, by decide, by decide, ?_⟩
  intro tag h
  rw [KINDS_lookup_eq_none h]
  rfl

/-- C8 witness: the fall-through of the mapping applied at the
concrete unmapped type `chore`. -/
theorem c8_witness :
    (KINDS.lookup ("chore".toList)).getD DEFAULT_KIND = TITLE_OTHER :=
  c8_classifier_mapping.2.2.2.2.2.2.2 ("chore".toList) (by decide)

/- C5: space-in-tag guard. -/

/-- C5 counterexample: for `feat(a b): add X` the text before the
first colon, `feat(a b)`, contains a space, yet classification is not
abandoned: the scope parse strips the tag to `feat` before the space
check, so the item lands in New Features with summary `a b: add X`,
not in Other with the whole original string. -/
theorem c5_counterexample :
    splitFirst ':' ("feat(a b): add X".toList) =
      some (("feat(a b)".toList), (" add X".toList)) ∧
    (strip ("feat(a b)".toList)).contains ' ' = true ∧
    classifyItem ("feat(a b): add X".toList) = (TITLE_NEW_FEATURE, ("a b: add X".toList)) ∧
    classifyItem ("feat(a b): add X".toList) ≠ (TITLE_OTHER, ("feat(a b): add X".toList)) := by
  decide

/-- C5 amended: the space guard applies to the tag as it stands after
the scope-stripping step.  When the pre-colon tag contains a space and
no `type(scope)` parse succeeds (no parenthesis, or the tag matcher
fails), the item is categorised Other with the entire original string
as summary; when the tag matcher does succeed, its extracted type can
never contain a space, so the guard cannot fire. -/
theorem c5_space_guard_after_scope_stripping :
    (∀ (item a b : Str), splitFirst ':' item = some (a, b) →
      (strip a).contains ' ' = true →
      ((strip a).contains '(' = false ∨ tagMatch (strip a) = none) →
      classifyItem item = (TITLE_OTHER, item)) ∧
    (∀ (t g1 sc : Str), tagMatch t = some (g1, sc) → g1.contains ' ' = false) := by
  constructor
  · intro item a b hsplit hsp hor
    have hne : strip a ≠ [] := by
      intro he
      rw [he] at hsp
      exact absurd hsp (by decide)
    have hts :
        (if ((strip a).contains '(' : Bool) then
          match tagMatch (strip a) with
          | some (g1, scope) =>
            (g1, if scope ≠ [] && scope ≠ ['*'] then
              scope ++ (": ".toList) ++ strip b else strip b)
          | none => (strip a, strip b)
        else (strip a, strip b)) = (strip a, strip b) := by
      rcases hor with hc | hm
      · rw [if_neg (by rw [hc]; exact Bool.false_ne_true)]
      · by_cases hc2 : ((strip a).contains '(') = true
        · rw [if_pos hc2, hm]
        · rw [if_neg hc2]
    simp only [classifyItem, hsplit, hts]
    rw [KINDS_lookup_space hsp]
    simp [hne, hsp]
    exact ⟨rfl, fun hn => absurd (by simpa using hsp) hn⟩
  · intro t g1 sc h
    simp only [tagMatch] at h
    cases hsp : splitFirst '(' (pyDropFinalNl t) with
    | none => rw [hsp] at h; exact absurd h (by simp)
    | some p =>
      obtain ⟨g, rest⟩ := p
      rw [hsp] at h
      simp only at h
      by_cases hg : g = []
      · rw [if_pos hg] at h; exact absurd h (by simp)
      · rw [if_neg hg] at h
        by_cases hgs : (g.contains ' ') = true
        · rw [if_pos hgs] at h; exact absurd h (by simp)
        · rw [if_neg hgs] at h
          cases hr : rest.reverse with
          | nil => rw [hr] at h; exact absurd h (by simp)
          | cons c ri =>
            rw [hr] at h
            simp only at h
            by_cases hcb : (c = ')' && !ri.contains '\n') = true
            · rw [if_pos hcb] at h
              have hgg : g = g1 := congrArg Prod.fst (Option.some.inj h)
              rw [← hgg]
              exact Bool.not_eq_true _ ▸ (Bool.eq_false_iff.mpr (fun hx => hgs hx))
            · rw [if_neg hcb] at h; exact absurd h (by simp)

/-- C5 witness: the amended guard applied to `my feat: x`, whose tag
`my feat` has a space and no parenthesis. -/
theorem c5_amended_witness :
    classifyItem ("my feat: x".toList) = (TITLE_OTHER, ("my feat: x".toList)) :=
  c5_space_guard_after_scope_stripping.1 ("my feat: x".toList) ("my feat".toList)
    (" x".toList) (by decide) (by decide) (Or.inl (by decide))

/- C3: MR-iid extraction. -/

/-- takeWhile over a block of satisfying elements followed by a
failing head stops exactly at the block. -/
lemma takeWhile_append_cons_neg {α : Type} (p : α → Bool) (a : List α) (c : α) (b : List α)
    (ha : ∀ x ∈ a, p x = true) (hc : p c = false) :
    (a ++ c :: b).takeWhile p = a := by
  induction a with
  | nil => simp [List.takeWhile_cons, hc]
  | cons x xs ih =>
    have hx := ha x (List.mem_cons_self x xs)
    simp only [List.cons_append, List.takeWhile_cons, hx]
    rw [ih (fun y hy => ha y (List.mem_cons_of_mem x hy))]
    simp

/-- dropWhile over a block of satisfying elements followed by a
failing head drops exactly the block. -/
lemma dropWhile_append_cons_neg {α : Type} (p : α → Bool) (a : List α) (c : α) (b : List α)
    (ha : ∀ x ∈ a, p x = true) (hc : p c = false) :
    (a ++ c :: b).dropWhile p = c :: b := by
  induction a with
  | nil => simp [List.dropWhile_cons, hc]
  | cons x xs ih =>
    have hx := ha x (List.mem_cons_self x xs)
    simp only [List.cons_append, List.dropWhile_cons, hx]
    exact ih (fun y hy => ha y (List.mem_cons_of_mem x hy))

/-- The full trailer decomposition of a message: everything before the
marker, the two blank-line newlines, the marker line head, a nonempty
newline-free middle, the bang and the digits. -/
def TrailerDecomp (msg pre mid ds : Str) : Prop :=
  pyDropFinalNl msg = pre ++ '\n' :: '\n' :: (sSeeMarker ++ mid ++ '!' :: ds) ∧
  mid ≠ [] ∧ (∀ c ∈ mid, c ≠ '\n') ∧ ds ≠ [] ∧ ∀ c ∈ ds, isDigitChar c = true

/-- C3 counterexample: a message that ends with a newline — hence not
with the trailer at the very end of the string — still yields iid 42,
because the regex `$` also matches just before one final newline. -/
theorem c3_counterexample :
    mr_num_for_commit_from_message (("x\n\nSee merge request foo!42\n").toList) = 42 ∧
    (("x\n\nSee merge request foo!42\n").toList).getLast? = some '\n' := by
  decide

/-- C3 amended: extraction yields the digit value exactly for messages
whose content, after discarding at most one final newline, ends with
`\n\nSee merge request <anything nonempty>!<digits>`; every other
message yields zero (and a trailer whose digits denote zero is
indistinguishable from absence). -/
theorem c3_trailer_extraction :
    ∀ msg : Str,
      (∀ pre mid ds : Str, TrailerDecomp msg pre mid ds →
        mr_num_for_commit_from_message msg = natOfDigits ds) ∧
      (mr_num_for_commit_from_message msg ≠ 0 →
        ∃ pre mid ds : Str, TrailerDecomp msg pre mid ds ∧
          mr_num_for_commit_from_message msg = natOfDigits ds) := by
  intro msg
  constructor
  · rintro pre mid ds ⟨hdec, hmid, hmidnl, hds, hdsdig⟩
    have hrev : (pyDropFinalNl msg).reverse =
        ds.reverse ++ '!' :: ((mid.reverse ++ sSeeMarker.reverse) ++ '\n' :: '\n' :: pre.reverse) := by
      rw [hdec]; simp
    have hdig : ∀ x ∈ ds.reverse, isDigitChar x = true := by
      intro x hx; exact hdsdig x (List.mem_reverse.mp hx)
    have htw : (pyDropFinalNl msg).reverse.takeWhile isDigitChar = ds.reverse := by
      rw [hrev]; exact takeWhile_append_cons_neg _ _ _ _ hdig (by decide)
    have hdw : (pyDropFinalNl msg).reverse.dropWhile isDigitChar =
        '!' :: ((mid.reverse ++ sSeeMarker.reverse) ++ '\n' :: '\n' :: pre.reverse) := by
      rw [hrev]; exact dropWhile_append_cons_neg _ _ _ _ hdig (by decide)
    have hnl : ∀ x ∈ mid.reverse ++ sSeeMarker.reverse, notNl x = true := by
      intro x hx
      rcases List.mem_append.mp hx with hx | hx
      · have := hmidnl x (List.mem_reverse.mp hx)
        simp [notNl, this]
      · have hmarker : ∀ y ∈ sSeeMarker, notNl y = true := by decide
        exact hmarker x (List.mem_reverse.mp hx)
    have hml : hasMarkerLineRev ((mid.reverse ++ sSeeMarker.reverse) ++ '\n' :: '\n' :: pre.reverse) = true := by
      simp only [hasMarkerLineRev]
      rw [takeWhile_append_cons_neg _ _ _ _ hnl (by decide),
        dropWhile_append_cons_neg _ _ _ _ hnl (by decide)]
      simp only [Bool.and_eq_true]
      constructor
      · rw [List.isPrefixOf_iff_prefix]
        refine ⟨mid, ?_⟩
        simp
      · have : 0 < mid.length := List.length_pos.mpr hmid
        simp only [List.length_append, List.length_reverse, decide_eq_true_eq]
        have hms : sSeeMarker.length = 18 := by decide
        omega
    show (match (pyDropFinalNl msg).reverse.dropWhile isDigitChar with
      | '!' :: beforeRev =>
        if ((pyDropFinalNl msg).reverse.takeWhile isDigitChar ≠ [] &&
            hasMarkerLineRev beforeRev : Bool) then
          natOfDigits ((pyDropFinalNl msg).reverse.takeWhile isDigitChar).reverse
        else 0
      | _ => 0) = natOfDigits ds
    rw [hdw, htw]
    simp only [hml]
    have hdsr : ds.reverse ≠ [] := by
      intro he; exact hds (by simpa using congrArg List.reverse he)
    simp [hdsr]
  · intro h
    have hbody : mr_num_for_commit_from_message msg =
        (match (pyDropFinalNl msg).reverse.dropWhile isDigitChar with
          | '!' :: beforeRev =>
            if ((pyDropFinalNl msg).reverse.takeWhile isDigitChar ≠ [] &&
                hasMarkerLineRev beforeRev : Bool) then
              natOfDigits ((pyDropFinalNl msg).reverse.takeWhile isDigitChar).reverse
            else 0
          | _ => 0) := rfl
    rw [hbody] at h
    split at h
    case h_2 => exact absurd rfl h
    case h_1 beforeRev heq =>
      split at h
      case isFalse => exact absurd rfl h
      case isTrue hcond =>
        have hcond2 := hcond
        rw [Bool.and_eq_true] at hcond2
        have hds0 : (pyDropFinalNl msg).reverse.takeWhile isDigitChar ≠ [] := by
          have h1 := hcond2.1
          simpa using h1
        have hml : hasMarkerLineRev beforeRev = true := hcond2.2
        have hsplit : (pyDropFinalNl msg).reverse =
            (pyDropFinalNl msg).reverse.takeWhile isDigitChar ++ '!' :: beforeRev := by
          conv_lhs => rw [← List.takeWhile_append_dropWhile isDigitChar (pyDropFinalNl msg).reverse]
          rw [heq]
        simp only [hasMarkerLineRev] at hml
        split at hml
        case h_2 => exact absurd hml (by decide)
        case h_1 tl heq2 =>
          rw [Bool.and_eq_true] at hml
          have hand := hml
          obtain ⟨D, hD⟩ : ∃ D, (pyDropFinalNl msg).reverse.takeWhile isDigitChar = D := ⟨_, rfl⟩
          obtain ⟨L, hL⟩ : ∃ L, beforeRev.takeWhile notNl = L := ⟨_, rfl⟩
          rw [hD] at hsplit hds0
          rw [hL] at hand
          obtain ⟨mid, hmid⟩ := List.isPrefixOf_iff_prefix.mp hand.1
          have hlen : sSeeMarker.length < L.length := by
            have h2 := hand.2
            simpa using h2
          have hbr : beforeRev = L ++ '\n' :: '\n' :: tl := by
            conv_lhs => rw [← List.takeWhile_append_dropWhile notNl beforeRev]
            rw [heq2, hL]
          have hlm : sSeeMarker.length + mid.length = L.length := by
            have := congrArg List.length hmid
            simpa using this
          refine ⟨tl.reverse, mid, D.reverse, ⟨?_, ?_, ?_, ?_, ?_⟩, ?_⟩
          · -- reassemble the decomposition of the message
            have hs2 : pyDropFinalNl msg = beforeRev.reverse ++ '!' :: D.reverse := by
              conv_lhs => rw [← List.reverse_reverse (pyDropFinalNl msg)]
              rw [hsplit]
              simp
            have hrev2 : (L ++ '\n' :: '\n' :: tl).reverse =
                tl.reverse ++ '\n' :: '\n' :: L.reverse := by simp
            rw [hs2, hbr, hrev2, ← hmid]
            simp
          · intro he
            rw [he] at hlm
            simp at hlm
            omega
          · intro c hc
            have hcrev : c ∈ L.reverse := by
              rw [← hmid]; exact List.mem_append_right _ hc
            have hctw : c ∈ beforeRev.takeWhile notNl := by
              rw [hL]; exact List.mem_reverse.mp hcrev
            have := List.mem_takeWhile_imp hctw
            simpa [notNl] using this
          · intro he
            exact hds0 (by simpa using congrArg List.reverse he)
          · intro c hc
            have hcD : c ∈ (pyDropFinalNl msg).reverse.takeWhile isDigitChar := by
              rw [hD]; exact List.mem_reverse.mp hc
            exact List.mem_takeWhile_imp hcD
          · rw [hbody, heq]
            simp only
            rw [if_pos hcond, hD]

/-- C3 witness: the amended extraction law applied to a concrete
message with the trailer at the very end. -/
theorem c3_amended_witness :
    mr_num_for_commit_from_message (("a\n\nSee merge request x!7").toList) = 7 := by
  have h := (c3_trailer_extraction (("a\n\nSee merge request x!7").toList)).1 ("a".toList)
    ("x".toList) ("7".toList) ⟨by decide, by decide, by decide, by decide, by decide⟩
  exact h.trans (by decide)

/- C10: totality and positivity of fetched iids. -/

/-- C10: extraction is total by construction (a natural number for
every message); only extracted iids strictly greater than zero enter
the fetch list, and a commit whose trailer digits denote 0 yields no
fetch and no note for any client behaviour. -/
theorem c10_only_positive_iids_fetched :
    (∀ (commits : List Commit) (iid : Nat), iid ∈ mrIidsOf commits → 0 < iid) ∧
    (∀ (c : Client) (project : Str),
      mr_from_commits [⟨("x\n\nSee merge request foo!0").toList⟩] c project = []) ∧
    mr_num_for_commit_from_message (("x\n\nSee merge request foo!0").toList) = 0 := by
  refine ⟨?_, ?_, by decide⟩
  · intro commits iid h
    have hmem := List.mem_filter.mp h
    simpa using hmem.2
  · intro c project
    rfl

/-- C10 witness: the positivity law applied to the concrete fetch list
of the trailer-5 commit. -/
theorem c10_witness : 0 < 5 ∧ 5 ∈ mrIidsOf [cmTrailer5] :=
  ⟨c10_only_positive_iids_fetched.1 [cmTrailer5] 5 (by decide), by decide⟩

/- C9: boundary-commit exclusion. -/

/-- C9: whenever the tag list is non-empty and the commit listing for
the resolved range returns a non-empty list, the pipeline hands the
merge-request resolver exactly the listing without its first element
when `since_at` is truthy, and the unchanged listing otherwise. -/
theorem c9_boundary_commit_drop :
    ∀ (c : Client) (project tag_name ref : Str) (since : Option Str)
      (tags : List Tag) (cs : List Commit),
      c.list_tags project = .ok tags → tags ≠ [] →
      c.list_commits project ref (resolveRange c project tag_name since tags).since_at
        (resolveRange c project tag_name since tags).until_at = .ok cs → cs ≠ [] →
      get_release_notes_by_tag c project tag_name ref since =
        ((resolveRange c project tag_name since tags).tag_exists,
         generate_release_notes
           (mr_from_commits
             (if truthy (resolveRange c project tag_name since tags).since_at
              then cs.drop 1 else cs) c project) mrCondition,
         none) ∧
      cs.drop 1 = cs.tail := by
  intro c project tag_name ref since tags cs hlt htg hlc hcs
  constructor
  · simp only [get_release_notes_by_tag, hlt]
    rw [if_neg htg]
    simp only [hlc]
    rw [if_neg hcs]
    by_cases hsa : truthy (resolveRange c project tag_name since tags).since_at = true
    · simp [hsa, hcs]
    · have hsa2 : truthy (resolveRange c project tag_name since tags).since_at = false :=
        Bool.eq_false_iff.mpr hsa
      simp [hsa2]
  · exact List.drop_one cs

/-- C9 witness: with the descending tags, target `v2` and two listed
commits the resolved `since_at` is truthy and the first commit `cmA`
is dropped before merge-request resolution. -/
theorem c9_witness :
    get_release_notes_by_tag twoCommitsClient sProj sV2 sRef none =
      (false, generate_release_notes (mr_from_commits [cmB] twoCommitsClient sProj)
        mrCondition, none) := by
  have h := (c9_boundary_commit_drop twoCommitsClient sProj sV2 sRef none tagsDesc
    [cmA, cmB] rfl (by decide) rfl (by decide)).1
  exact h.trans (by decide)

/- C7: pipeline error discipline. -/

/-- C7 counterexample: a client whose merge-request fetch raises.  The
exception is caught inside the resolver, the merge request is simply
omitted, and the pipeline returns no error — while the claim requires
a non-null error whenever an exception is raised during MR
retrieval. -/
theorem c7_counterexample :
    get_release_notes_by_tag mrErrClient sProj sV1 sRef none = (true, [], none) ∧
    mrIidsOf [cmTrailer5] = [5] ∧
    isErr (mrErrClient.get_merge_request sProj 5) = true := by
  decide

/-- C7 amended: the pipeline returns a non-null error exactly when the
tag listing raises, the tag list is empty, or the commit listing for
the resolved range raises; in every error case the markdown is empty,
and an empty commit listing yields `(tag_exists, empty, no error)`.
Exceptions raised by per-MR fetches (and by the since-reference commit
lookup) are caught and only reduce the produced notes. -/
theorem c7_error_discipline :
    ∀ (c : Client) (project tag_name ref : Str) (since : Option Str),
      ((get_release_notes_by_tag c project tag_name ref since).2.2 ≠ none ↔
        isErr (c.list_tags project) = true ∨ c.list_tags project = .ok [] ∨
        (∃ tags, c.list_tags project = .ok tags ∧ tags ≠ [] ∧
          isErr (c.list_commits project ref
            (resolveRange c project tag_name since tags).since_at
            (resolveRange c project tag_name since tags).until_at) = true)) ∧
      ((get_release_notes_by_tag c project tag_name ref since).2.2 ≠ none →
        (get_release_notes_by_tag c project tag_name ref since).2.1 = []) ∧
      (∀ tags, c.list_tags project = .ok tags → tags ≠ [] →
        c.list_commits project ref (resolveRange c project tag_name since tags).since_at
          (resolveRange c project tag_name since tags).until_at = .ok [] →
        get_release_notes_by_tag c project tag_name ref since =
          ((resolveRange c project tag_name since tags).tag_exists, [], none)) := by
  intro c project tag_name ref since
  cases hlt : c.list_tags project with
  | error e =>
    have hg : get_release_notes_by_tag c project tag_name ref since = (false, [], some e) := by
      simp [get_release_notes_by_tag, hlt]
    refine ⟨?_, ?_, ?_⟩
    · rw [hg]
      constructor
      · intro _
        exact Or.inl rfl
      · intro _
        simp
    · rw [hg]
      intro _
      rfl
    · intro tags htags _ _
      exact absurd htags (by simp)
  | ok tags =>
    by_cases htg : tags = []
    · subst htg
      have hg : get_release_notes_by_tag c project tag_name ref since =
          (false, [], some sNoTagsError) := by
        simp [get_release_notes_by_tag, hlt]
      refine ⟨?_, ?_, ?_⟩
      · rw [hg]
        constructor
        · intro _
          exact Or.inr (Or.inl rfl)
        · intro _
          simp
      · rw [hg]
        intro _
        rfl
      · intro tags2 htags2 hne2 _
        exact absurd (Except.ok.inj htags2).symm hne2
    · cases hlc : c.list_commits project ref
        (resolveRange c project tag_name since tags).since_at
        (resolveRange c project tag_name since tags).until_at with
      | error e =>
        have hg : get_release_notes_by_tag c project tag_name ref since =
            (false, [], some e) := by
          simp only [get_release_notes_by_tag, hlt]
          rw [if_neg htg]
          simp [hlc]
        refine ⟨?_, ?_, ?_⟩
        · rw [hg]
          constructor
          · intro _
            exact Or.inr (Or.inr ⟨tags, rfl, htg, by rw [hlc]; rfl⟩)
          · intro _
            simp
        · rw [hg]
          intro _
          rfl
        · intro tags2 htags2 _ hok2
          have he := (Except.ok.inj htags2).symm
          subst he
          rw [hlc] at hok2
          exact absurd hok2 (by simp)
      | ok commits =>
        have hg : get_release_notes_by_tag c project tag_name ref since =
            (if commits = [] then
              ((resolveRange c project tag_name since tags).tag_exists, [], none)
            else
              ((resolveRange c project tag_name since tags).tag_exists,
               generate_release_notes
                 (mr_from_commits
                   (if (commits ≠ [] &&
                        truthy (resolveRange c project tag_name since tags).since_at : Bool)
                    then commits.drop 1 else commits) c project) mrCondition,
               none)) := by
          simp only [get_release_notes_by_tag, hlt]
          rw [if_neg htg]
          simp [hlc]
        have hnone : (get_release_notes_by_tag c project tag_name ref since).2.2 = none := by
          rw [hg]
          by_cases hcm : commits = []
          · rw [if_pos hcm]
          · rw [if_neg hcm]
        refine ⟨?_, ?_, ?_⟩
        · rw [hnone]
          constructor
          · intro hx
            exact absurd rfl hx
          · rintro (hx | hx | ⟨tags2, h1, _, h3⟩)
            · exact absurd hx (by simp [isErr])
            · exact absurd (Except.ok.inj hx) htg
            · have he := (Except.ok.inj h1).symm
              subst he
              rw [hlc] at h3
              exact absurd h3 (by simp [isErr])
        · intro hx
          rw [hnone] at hx
          exact absurd rfl hx
        · intro tags2 htags2 _ hok2
          have he := (Except.ok.inj htags2).symm
          subst he
          rw [hlc] at hok2
          have hce : commits = [] := Except.ok.inj hok2
          rw [hg, if_pos hce]

/-- C7 witness: a non-empty tag list with an empty commit listing
returns the resolved `tag_exists` with empty markdown and no error. -/
theorem c7_amended_witness :
    get_release_notes_by_tag emptyCommitsClient sProj sV2 sRef none = (false, [], none) := by
  have h := (c7_error_discipline emptyCommitsClient sProj sV2 sRef none).2.2 tagsDesc rfl
    (by decide) rfl
  exact h.trans (by decide)

/- C6: exclusion filter.  The executable matchers are related, layer
by layer, to the declarative decompositions. -/

/-- Case-insensitive prefix matching is existence of a
case-insensitively equal leading segment. -/
lemma ciPrefixOf_iff :
    ∀ (w l : Str), ciPrefixOf w l = true ↔
      ∃ a r, l = a ++ r ∧ a.map lowerC = w.map lowerC := by
  intro w
  induction w with
  | nil =>
    intro l
    constructor
    · intro _
      exact ⟨[], l, rfl, rfl⟩
    · intro _
      rfl
  | cons b bs ih =>
    intro l
    cases l with
    | nil =>
      constructor
      · intro h
        exact absurd h (by simp [ciPrefixOf])
      · rintro ⟨a, r, he, hm⟩
        have ha : a = [] := by
          cases a with
          | nil => rfl
          | cons x xs => exact absurd he (by simp)
        rw [ha] at hm
        exact absurd hm (by simp)
    | cons c cs =>
      constructor
      · intro h
        simp only [ciPrefixOf, Bool.and_eq_true, decide_eq_true_eq] at h
        obtain ⟨a, r, he, hm⟩ := (ih cs).mp h.2
        refine ⟨c :: a, r, by rw [List.cons_append, ← he], ?_⟩
        simp [hm, h.1.symm]
      · rintro ⟨a, r, he, hm⟩
        cases a with
        | nil => exact absurd hm (by simp)
        | cons x xs =>
          rw [List.cons_append] at he
          obtain ⟨h1, h2⟩ := List.cons.inj he
          simp only [List.map_cons, List.cons.injEq] at hm
          simp only [ciPrefixOf, Bool.and_eq_true, decide_eq_true_eq]
          exact ⟨h1 ▸ hm.1.symm, (ih cs).mpr ⟨xs, r, h2, hm.2⟩⟩

/-- Case-insensitively equal strings have equal length. -/
lemma ciEq_length {a b : Str} (h : ciEq a b) : a.length = b.length := by
  have := congrArg List.length h
  simpa using this

/-- The whitespace-then-closing-fence matcher is the corresponding
decomposition. -/
lemma matchWs2_iff : ∀ l : Str, matchWs2 l = true ↔ W2P l := by
  intro l
  induction l with
  | nil =>
    constructor
    · intro h
      exact absurd h (by decide)
    · rintro ⟨w, r, he, _⟩
      have := congrArg List.length he
      simp [sTicks] at this
      omega
  | cons c rest ih =>
    constructor
    · intro h
      rcases bor_iff.mp h with h | h
      · obtain ⟨t, ht⟩ := List.isPrefixOf_iff_prefix.mp h
        exact ⟨[], t, ht.symm, by intro x hx; cases hx⟩
      · rcases band_iff.mp h with ⟨hc, hm⟩
        obtain ⟨w, r, he, hws⟩ := ih.mp hm
        refine ⟨c :: w, r, by rw [he]; simp, ?_⟩
        intro x hx
        rcases List.mem_cons.mp hx with hx | hx
        · rw [hx]; exact hc
        · exact hws x hx
    · rintro ⟨w, r, he, hws⟩
      cases w with
      | nil =>
        simp only [List.nil_append] at he
        apply bor_iff.mpr
        left
        exact List.isPrefixOf_iff_prefix.mpr ⟨r, he.symm⟩
      | cons x xs =>
        rw [List.cons_append] at he
        obtain ⟨h1, h2⟩ := List.cons.inj he
        apply bor_iff.mpr
        right
        apply band_iff.mpr
        refine ⟨h1 ▸ hws x (List.mem_cons_self x xs), ?_⟩
        exact ih.mpr ⟨xs, r, h2, fun y hy => hws y (List.mem_cons_of_mem x hy)⟩

/-- The closing-quote matcher is the corresponding decomposition. -/
lemma matchQ2_iff : ∀ l : Str, matchQ2 l = true ↔ Q2P l := by
  intro l
  constructor
  · intro h
    rcases bor_iff.mp h with h | h
    · exact ⟨[], l, rfl, Or.inl rfl, (matchWs2_iff l).mp h⟩
    · cases l with
      | nil => exact absurd h (by decide)
      | cons c rest =>
        rcases band_iff.mp h with ⟨hq, hm⟩
        rcases bor_iff.mp hq with hq | hq
        · refine ⟨['\''], rest, ?_, Or.inr (Or.inl rfl), (matchWs2_iff rest).mp hm⟩
          simp only [decide_eq_true_eq] at hq
          rw [hq]
          rfl
        · refine ⟨['"'], rest, ?_, Or.inr (Or.inr rfl), (matchWs2_iff rest).mp hm⟩
          simp only [decide_eq_true_eq] at hq
          rw [hq]
          rfl
  · rintro ⟨q, r, he, hq, hw⟩
    rcases hq with hq | hq | hq
    · subst hq
      simp only [List.nil_append] at he
      rw [he]
      exact bor_iff.mpr (Or.inl ((matchWs2_iff r).mpr hw))
    · subst hq
      subst he
      apply bor_iff.mpr
      right
      show ((('\'' = '\'' : Bool) || ('\'' = '"' : Bool)) && matchWs2 r) = true
      simp [(matchWs2_iff r).mpr hw]
    · subst hq
      subst he
      apply bor_iff.mpr
      right
      show ((('"' = '\'' : Bool) || ('"' = '"' : Bool)) && matchWs2 r) = true
      simp [(matchWs2_iff r).mpr hw]

/-- The content matcher is the corresponding decomposition. -/
lemma matchContent_iff : ∀ l : Str, matchContent l = true ↔ CoP l := by
  intro l
  constructor
  · intro h
    rcases bor_iff.mp h with h | h
    · exact ⟨[], l, rfl, Or.inl rfl, (matchQ2_iff l).mp h⟩
    · obtain ⟨w, hw, hand⟩ := List.any_eq_true.mp h
      rcases band_iff.mp hand with ⟨hp, hm⟩
      obtain ⟨a, r, he, hmap⟩ := (ciPrefixOf_iff w l).mp hp
      have hlen : a.length = w.length := by
        have := congrArg List.length hmap
        simpa using this
      have hdrop : l.drop w.length = r := by
        rw [he, ← hlen, List.drop_left]
      rw [hdrop] at hm
      refine ⟨a, r, he, ?_, (matchQ2_iff r).mp hm⟩
      simp only [contentWords, List.mem_cons, List.not_mem_nil, or_false] at hw
      rcases hw with hw | hw | hw <;> subst hw
      · exact Or.inr (Or.inl hmap)
      · exact Or.inr (Or.inr (Or.inl hmap))
      · exact Or.inr (Or.inr (Or.inr hmap))
  · rintro ⟨co, r, he, hco, hq⟩
    rcases hco with hco | hco | hco | hco
    · subst hco
      simp only [List.nil_append] at he
      rw [he]
      exact bor_iff.mpr (Or.inl ((matchQ2_iff r).mpr hq))
    · apply bor_iff.mpr
      right
      apply List.any_eq_true.mpr
      refine ⟨("none".toList), by decide, band_iff.mpr ⟨?_, ?_⟩⟩
      · exact (ciPrefixOf_iff _ l).mpr ⟨co, r, he, hco⟩
      · have hdrop : l.drop (("none".toList)).length = r := by
          rw [he, ← ciEq_length hco, List.drop_left]
        rw [hdrop]
        exact (matchQ2_iff r).mpr hq
    · apply bor_iff.mpr
      right
      apply List.any_eq_true.mpr
      refine ⟨("n/a".toList), by decide, band_iff.mpr ⟨?_, ?_⟩⟩
      · exact (ciPrefixOf_iff _ l).mpr ⟨co, r, he, hco⟩
      · have hdrop : l.drop (("n/a".toList)).length = r := by
          rw [he, ← ciEq_length hco, List.drop_left]
        rw [hdrop]
        exact (matchQ2_iff r).mpr hq
    · apply bor_iff.mpr
      right
      apply List.any_eq_true.mpr
      refine ⟨("na".toList), by decide, band_iff.mpr ⟨?_, ?_⟩⟩
      · exact (ciPrefixOf_iff _ l).mpr ⟨co, r, he, hco⟩
      · have hdrop : l.drop (("na".toList)).length = r := by
          rw [he, ← ciEq_length hco, List.drop_left]
        rw [hdrop]
        exact (matchQ2_iff r).mpr hq

/-- The opening-quote matcher is the corresponding decomposition. -/
lemma matchQ1_iff : ∀ l : Str, matchQ1 l = true ↔ Q1P l := by
  intro l
  constructor
  · intro h
    rcases bor_iff.mp h with h | h
    · exact ⟨[], l, rfl, Or.inl rfl, (matchContent_iff l).mp h⟩
    · cases l with
      | nil => exact absurd h (by decide)
      | cons c rest =>
        rcases band_iff.mp h with ⟨hq, hm⟩
        rcases bor_iff.mp hq with hq | hq
        · refine ⟨['\''], rest, ?_, Or.inr (Or.inl rfl), (matchContent_iff rest).mp hm⟩
          simp only [decide_eq_true_eq] at hq
          rw [hq]
          rfl
        · refine ⟨['"'], rest, ?_, Or.inr (Or.inr rfl), (matchContent_iff rest).mp hm⟩
          simp only [decide_eq_true_eq] at hq
          rw [hq]
          rfl
  · rintro ⟨q, r, he, hq, hw⟩
    rcases hq with hq | hq | hq
    · subst hq
      simp only [List.nil_append] at he
      rw [he]
      exact bor_iff.mpr (Or.inl ((matchContent_iff r).mpr hw))
    · subst hq
      subst he
      apply bor_iff.mpr
      right
      show ((('\'' = '\'' : Bool) || ('\'' = '"' : Bool)) && matchContent r) = true
      simp [(matchContent_iff r).mpr hw]
    · subst hq
      subst he
      apply bor_iff.mpr
      right
      show ((('"' = '\'' : Bool) || ('"' = '"' : Bool)) && matchContent r) = true
      simp [(matchContent_iff r).mpr hw]

/-- The leading-whitespace matcher is the corresponding
decomposition. -/
lemma matchWs1_iff : ∀ l : Str, matchWs1 l = true ↔ W1P l := by
  intro l
  induction l with
  | nil =>
    constructor
    · intro h
      exact ⟨[], [], rfl, fun x hx => absurd hx (List.not_mem_nil x), (matchQ1_iff []).mp h⟩
    · rintro ⟨w, r, he, _, hq⟩
      rcases List.append_eq_nil.mp he.symm with ⟨hw, hr⟩
      subst hw
      subst hr
      exact (matchQ1_iff []).mpr hq
  | cons c rest ih =>
    constructor
    · intro h
      rcases bor_iff.mp h with h | h
      · exact ⟨[], c :: rest, rfl, fun x hx => absurd hx (List.not_mem_nil x), (matchQ1_iff _).mp h⟩
      · rcases band_iff.mp h with ⟨hc, hm⟩
        obtain ⟨w, r, he, hws, hq⟩ := ih.mp hm
        refine ⟨c :: w, r, by rw [he]; rfl, ?_, hq⟩
        intro x hx
        rcases List.mem_cons.mp hx with hx | hx
        · rw [hx]; exact hc
        · exact hws x hx
    · rintro ⟨w, r, he, hws, hq⟩
      cases w with
      | nil =>
        simp only [List.nil_append] at he
        rw [← he] at hq
        exact bor_iff.mpr (Or.inl ((matchQ1_iff _).mpr hq))
      | cons x xs =>
        rw [List.cons_append] at he
        obtain ⟨h1, h2⟩ := List.cons.inj he
        apply bor_iff.mpr
        right
        apply band_iff.mpr
        refine ⟨h1 ▸ hws x (List.mem_cons_self x xs), ?_⟩
        exact ih.mpr ⟨xs, r, h2, fun y hy => hws y (List.mem_cons_of_mem x hy), hq⟩

/-- The optional-plural-s matcher is the corresponding
decomposition. -/
lemma matchSOpt_iff : ∀ l : Str, matchSOpt l = true ↔ SOP l := by
  intro l
  constructor
  · intro h
    rcases bor_iff.mp h with h | h
    · exact ⟨[], l, rfl, Or.inl rfl, (matchWs1_iff l).mp h⟩
    · cases l with
      | nil => exact absurd h (by decide)
      | cons c rest =>
        rcases band_iff.mp h with ⟨hc, hm⟩
        simp only [decide_eq_true_eq] at hc
        refine ⟨[c], rest, rfl, Or.inr ?_, (matchWs1_iff rest).mp hm⟩
        show [c].map lowerC = ['s'].map lowerC
        simp only [List.map_cons, List.map_nil]
        rw [hc]
        rfl
  · rintro ⟨x, r, he, hx, hw⟩
    rcases hx with hx | hx
    · subst hx
      simp only [List.nil_append] at he
      rw [he]
      exact bor_iff.mpr (Or.inl ((matchWs1_iff r).mpr hw))
    · cases x with
      | nil => exact absurd hx (by simp [ciEq])
      | cons y ys =>
        have hys : ys = [] ∧ lowerC y = 's' := by
          simp only [ciEq, List.map_cons, List.map_nil] at hx
          have h1 := List.cons.inj hx
          have h2 : lowerC 's' = 's' := by decide
          rw [h2] at h1
          exact ⟨List.map_eq_nil_iff.mp h1.2, h1.1⟩
        obtain ⟨hys1, hys2⟩ := hys
        subst hys1
        subst he
        apply bor_iff.mpr
        right
        apply band_iff.mpr
        exact ⟨by simp [hys2], (matchWs1_iff r).mpr hw⟩

/-- The anchored fence matcher is the anchored decomposition. -/
lemma matchFenceAt_iff : ∀ l : Str, matchFenceAt l = true ↔ FenceAtP l := by
  intro l
  constructor
  · intro h
    rcases band_iff.mp h with ⟨hp, hs⟩
    obtain ⟨tg, r, he, hmap⟩ := (ciPrefixOf_iff sFenceTag l).mp hp
    have hdrop : l.drop sFenceTag.length = r := by
      have hlen : tg.length = sFenceTag.length := by
        have := congrArg List.length hmap
        simpa using this
      rw [he, ← hlen, List.drop_left]
    rw [hdrop] at hs
    exact ⟨tg, r, he, hmap, (matchSOpt_iff r).mp hs⟩
  · rintro ⟨tg, r, he, htg, hs⟩
    apply band_iff.mpr
    constructor
    · exact (ciPrefixOf_iff sFenceTag l).mpr ⟨tg, r, he, htg⟩
    · have hdrop : l.drop sFenceTag.length = r := by
        rw [he, ← ciEq_length htg, List.drop_left]
      rw [hdrop]
      exact (matchSOpt_iff r).mpr hs

/-- The fence search succeeds exactly on strings admitting the full
fenced-block decomposition. -/
lemma fenceSearch_iff : ∀ s : Str, fenceSearch s = true ↔ FenceDecomp s := by
  intro s
  constructor
  · intro h
    obtain ⟨x, hx, hm⟩ := List.any_eq_true.mp h
    obtain ⟨pre, hpre⟩ := (List.mem_tails x s).mp hx
    obtain ⟨tg, r1, he1, htg, so, r2, he2, hso, hw1p⟩ := (matchFenceAt_iff x).mp hm
    obtain ⟨w1, r3, he3, hws1, hq1p⟩ := hw1p
    obtain ⟨q1, r4, he4, hq1, hcop⟩ := hq1p
    obtain ⟨co, r5, he5, hco, hq2p⟩ := hcop
    obtain ⟨q2, r6, he6, hq2, hw2p⟩ := hq2p
    obtain ⟨w2, post, he7, hws2⟩ := hw2p
    refine ⟨pre, tg, so, w1, q1, co, q2, w2, post, ?_, htg, hso, hws1, hq1, hco, hq2, hws2⟩
    rw [← hpre, he1, he2, he3, he4, he5, he6, he7]
    simp [List.append_assoc]
  · rintro ⟨pre, tg, so, w1, q1, co, q2, w2, post, heq, htg, hso, hws1, hq1, hco, hq2, hws2⟩
    apply List.any_eq_true.mpr
    refine ⟨tg ++ (so ++ (w1 ++ (q1 ++ (co ++ (q2 ++ (w2 ++ (sTicks ++ post))))))), ?_, ?_⟩
    · refine (List.mem_tails _ s).mpr ⟨pre, ?_⟩
      rw [heq]
      simp [List.append_assoc]
    · exact (matchFenceAt_iff _).mpr
        ⟨tg, _, rfl, htg,
         so, _, rfl, hso,
         ⟨w1, _, rfl, hws1, q1, _, rfl, hq1, co, _, rfl, hco, q2, _, rfl, hq2, w2, post, (List.append_assoc w2 sTicks post).symm, hws2⟩⟩

/-- The token search succeeds exactly on strings containing the
literal directive. -/
lemma tokenSearch_iff : ∀ s : Str, tokenSearch s = true ↔ TokenDecomp s := by
  intro s
  constructor
  · intro h
    obtain ⟨x, hx, hm⟩ := List.any_eq_true.mp h
    obtain ⟨pre, hpre⟩ := (List.mem_tails x s).mp hx
    obtain ⟨t, ht⟩ := List.isPrefixOf_iff_prefix.mp hm
    exact ⟨pre, t, by rw [← hpre, ← ht]; simp [List.append_assoc]⟩
  · rintro ⟨pre, post, he⟩
    apply List.any_eq_true.mpr
    refine ⟨sNoneToken ++ post, (List.mem_tails _ s).mpr ⟨pre, by rw [he]; simp [List.append_assoc]⟩, ?_⟩
    exact List.isPrefixOf_iff_prefix.mpr ⟨post, rfl⟩

/-- C6: a merge request is excluded (the pipeline condition rejects
it) exactly when its description contains an empty/none/n-a fenced
release-note block or the `/release-note-none` token, or its labels
contain `release-note-none`; and the predicate depends only on the
description and the labels. -/
theorem c6_exclusion_filter :
    ∀ mr : MergeRequest,
      (mrCondition mr = false ↔
        (FenceDecomp mr.description ∨ TokenDecomp mr.description ∨
         LABEL_RELEASE_NOTE_NONE ∈ mr.labels)) ∧
      (∀ m2 : MergeRequest, mr.description = m2.description → mr.labels = m2.labels →
        mrCondition mr = mrCondition m2) := by
  intro mr
  constructor
  · have hiff : mrCondition mr = false ↔
        (matches_exclude_filter mr.description = true ∨
         is_in_array LABEL_RELEASE_NOTE_NONE mr.labels = true) := by
      unfold mrCondition
      cases hA : matches_exclude_filter mr.description <;>
        cases hB : is_in_array LABEL_RELEASE_NOTE_NONE mr.labels <;> simp [hA, hB]
    rw [hiff]
    constructor
    · rintro (hA | hB)
      · rcases bor_iff.mp hA with hF | hT
        · exact Or.inl ((fenceSearch_iff mr.description).mp hF)
        · exact Or.inr (Or.inl ((tokenSearch_iff mr.description).mp hT))
      · exact Or.inr (Or.inr (List.elem_iff.mp hB))
    · rintro (hF | hT | hL)
      · exact Or.inl (bor_iff.mpr (Or.inl ((fenceSearch_iff mr.description).mpr hF)))
      · exact Or.inl (bor_iff.mpr (Or.inr ((tokenSearch_iff mr.description).mpr hT)))
      · exact Or.inr (List.elem_iff.mpr hL)
  · intro m2 hd hl
    unfold mrCondition
    rw [hd, hl]

/-- C6 witness: the exclusion law applied to a merge request whose
only exclusion trigger is the `release-note-none` label. -/
theorem c6_witness : mrCondition mrLabeled = false :=
  ((c6_exclusion_filter mrLabeled).1).mpr (Or.inr (Or.inr (by decide)))

end Walle
